import Mathlib

/-!
Verification of the QCoDeS documentation excerpt: the Mercury iPS magnet
power-supply driver notebook (field targets in Cartesian / spherical /
cylindrical coordinates, user-supplied safety regions, two-step
target-then-ramp control) and the "Combined Parameters" notebook
(sweeping several parameters together inside a measurement loop).

The driver and framework implementations are not part of the excerpt, so
the definitions below are shallow models built from the notebooks' own
description of the behaviour.  Field values are real numbers; parameter
values in the combined-parameter model are rationals.
-/

set_option maxHeartbeats 1000000

noncomputable section

/-- Modelled from the spec: the driver's `FieldVector` value class
(`qcodes.math.field_vector`, not in the excerpt).  It keeps one magnetic
field vector simultaneously in Cartesian (`x`, `y`, `z`), spherical
(`r`, `theta`, `phi`) and cylindrical (`rho`, `phi`, `z`) coordinates;
the notebook: "The driver is aware of the field values in three
coordinate systems" and "exposes the field coordinates x, y, z, phi,
theta, rho, and r". -/
structure FieldVector where
  x : ℝ
  y : ℝ
  z : ℝ
  r : ℝ
  theta : ℝ
  phi : ℝ
  rho : ℝ

/-- Modelled from the spec: rebuilding all seven coordinates from a
Cartesian triple.  `theta` is the polar angle measured from the positive
z-axis (the two-argument arctangent of `(rho, z)`, written here as a
complex argument), `phi` the azimuth. -/
def computeFromCartesian (x y z : ℝ) : FieldVector where
  x := x
  y := y
  z := z
  r := Real.sqrt (x ^ 2 + y ^ 2 + z ^ 2)
  theta := Complex.arg (z + Real.sqrt (x ^ 2 + y ^ 2) * Complex.I)
  phi := Complex.arg (x + y * Complex.I)
  rho := Real.sqrt (x ^ 2 + y ^ 2)

/-- Modelled from the spec: rebuilding all seven coordinates from a
spherical triple.  The angles are stored as given, so they survive
`r = 0` (the notebook: "At the origin, we can not measure what theta
and phi is, but the driver remembers it"). -/
def computeFromSpherical (r theta phi : ℝ) : FieldVector where
  x := r * Real.sin theta * Real.cos phi
  y := r * Real.sin theta * Real.sin phi
  z := r * Real.cos theta
  r := r
  theta := theta
  phi := phi
  rho := r * Real.sin theta

/-- Modelled from the spec: rebuilding all seven coordinates from a
cylindrical triple. -/
def computeFromCylindrical (rho phi z : ℝ) : FieldVector where
  x := rho * Real.cos phi
  y := rho * Real.sin phi
  z := z
  r := Real.sqrt (rho ^ 2 + z ^ 2)
  theta := Complex.arg (z + rho * Complex.I)
  phi := phi
  rho := rho

/-- The seven coordinates the driver exposes. -/
inductive Coord where
  | x
  | y
  | z
  | r
  | theta
  | phi
  | rho

/-- Modelled from the spec: `FieldVector.set_component`.  Setting one
coordinate keeps the other two coordinates of the same representation
and recomputes everything else. -/
def FieldVector.setComponent (v : FieldVector) : Coord → ℝ → FieldVector
  | Coord.x, a => computeFromCartesian a v.y v.z
  | Coord.y, a => computeFromCartesian v.x a v.z
  | Coord.z, a => computeFromCartesian v.x v.y a
  | Coord.r, a => computeFromSpherical a v.theta v.phi
  | Coord.theta, a => computeFromSpherical v.r a v.phi
  | Coord.phi, a => computeFromSpherical v.r v.theta a
  | Coord.rho, a => computeFromCylindrical a v.phi v.z

/-- Modelled from the spec: the driver state.  `target` is the stored
target vector; `measured` is the Cartesian field the three power-supply
groups actually produce (only Cartesian components exist in hardware). -/
structure DriverState where
  target : FieldVector
  measured : Fin 3 → ℝ

/-- The error raised by `_set_target`: the notebook shows
`ValueError('Cannot set {coordinate} target to {target}, that would
violate the field_limits. ')`; we keep the two interpolated pieces. -/
structure TargetError where
  coordinate : Coord
  targetValue : ℝ

/-- Modelled from the spec: `MercuryiPS._set_target`.  A prospective
copy of the target vector gets the new component; the user limit
function is applied to its Cartesian components; on `false` a
`ValueError` is raised (state unchanged), on `true` the stored target
is updated.  Visible in the notebook traceback:
`if not self._field_limits(*valid_vec.get_components('x','y','z')):
raise ValueError(...)`. -/
def setTarget (L : ℝ → ℝ → ℝ → Bool) (s : DriverState) (c : Coord) (v : ℝ) :
    Except TargetError DriverState :=
  cond (L (s.target.setComponent c v).x (s.target.setComponent c v).y
        (s.target.setComponent c v).z)
    (Except.ok { s with target := s.target.setComponent c v })
    (Except.error ⟨c, v⟩)

/-- Running a target set with exception semantics: a raised
`ValueError` leaves the caller's driver state as it was. -/
def setTargetRun (L : ℝ → ℝ → ℝ → Bool) (s : DriverState) (c : Coord) (v : ℝ) :
    DriverState :=
  match setTarget L s c v with
  | Except.ok s' => s'
  | Except.error _ => s

/-- The Cartesian components of the stored target, in the order the
three hardware groups receive them. -/
def targetCartesian (s : DriverState) : Fin 3 → ℝ :=
  ![s.target.x, s.target.y, s.target.z]

/-- Modelled from the spec: the effect of a completed `ramp` call: the
magnet is asked to ramp to the stored target, so the measured Cartesian
field ends at the target's Cartesian components, and the stored target
is untouched. -/
def rampTo (s : DriverState) : DriverState :=
  { s with measured := targetCartesian s }

/-- The field vector reconstructed from the measured Cartesian
components, which is what the `*_measured` parameters report. -/
def measuredVector (s : DriverState) : FieldVector :=
  computeFromCartesian (s.measured 0) (s.measured 1) (s.measured 2)

/-- `theta_measured`. -/
def thetaMeasured (s : DriverState) : ℝ := (measuredVector s).theta

/-- `phi_measured`. -/
def phiMeasured (s : DriverState) : ℝ := (measuredVector s).phi

/-- The all-zero field vector. -/
def initialFieldVector : FieldVector := ⟨0, 0, 0, 0, 0, 0, 0⟩

/-- The driver state right after connecting in the notebook: all
targets and all measured components are zero. -/
def initialState : DriverState := ⟨initialFieldVector, fun _ => 0⟩

/-- A limit function that allows everything (the driver's default). -/
def trueLimit : ℝ → ℝ → ℝ → Bool := fun _ _ _ => true

/-- The example limit function of the notebook, from its source cell:
`def spherical_limit(x, y, z): return np.sqrt(x**2 + y**2 + z**2) <= 1`. -/
def sphericalLimit (x y z : ℝ) : Bool :=
  decide (Real.sqrt (x ^ 2 + y ^ 2 + z ^ 2) ≤ 1)

/-! ### The safe ramp

Modelled from the spec: "When safely ramping, all field components that
are ramped *towards* the origin are ramped before those who are ramped
*away from* the origin.  The ramp is thus sequential and blocking".
Each Cartesian axis is ramped on its own, straight from its current
value to its target value. -/

/-- A Cartesian component whose magnitude does not grow is ramped
"towards the origin". -/
def towardOrigin (s t : Fin 3 → ℝ) (i : Fin 3) : Bool := decide (|t i| ≤ |s i|)

/-- The order in which the safe ramp handles the axes: all axes moving
towards the origin first, then the axes moving away from it. -/
def safeOrder (s t : Fin 3 → ℝ) : List (Fin 3) :=
  (List.finRange 3).filter (towardOrigin s t) ++
    (List.finRange 3).filter (fun i => ! towardOrigin s t i)

/-- The field during the safe ramp while the axes in `done` have
already reached their targets and axis `j` is at fraction `c` of its
own ramp; all remaining axes still sit at their start values. -/
def segPoint (s t : Fin 3 → ℝ) (done : List (Fin 3)) (j : Fin 3) (c : ℝ) :
    Fin 3 → ℝ :=
  fun i => if i ∈ done then t i else if i = j then (1 - c) * s i + c * t i else s i

/-- `v` is one of the field values passed through by the safe ramp from
`s` to `t`. -/
def SafeRampIntermediate (s t v : Fin 3 → ℝ) : Prop :=
  ∃ k, ∃ hk : k < (safeOrder s t).length, ∃ c : ℝ,
    0 ≤ c ∧ c ≤ 1 ∧
      v = segPoint s t ((safeOrder s t).take k) ((safeOrder s t).get ⟨k, hk⟩) c

/-- A region that is closed under shrinking the magnitude of every
Cartesian component separately.  The notebook's example region (the
closed unit ball) is of this kind. -/
def MagnitudeClosed (S : Set (Fin 3 → ℝ)) : Prop :=
  ∀ w ∈ S, ∀ v : Fin 3 → ℝ, (∀ i, |v i| ≤ |w i|) → v ∈ S

/-- An explicit convex region used to show that convexity alone does
not make the safe ramp safe: the halfspace `p 1 ≤ p 0 + p 2`. -/
def halfspaceRegion : Set (Fin 3 → ℝ) := {p | p 1 ≤ p 0 + p 2}

end

/-! ### Combined parameters

Modelled from the spec: `qc.combine(p1, ..., pk, aggregator=...)` and
`combined.sweep(...)` inside a `qc.Loop` ("Combined Parameters"
notebook).  Parameter values are modelled as rationals; the state of
the `k` combined parameters is a list of their current values. -/

/-- Modelled from the spec: one step of the combined sweep sets every
underlying parameter to its own component of the current setpoint row
(components beyond the row's length keep their old value). -/
def setEach (prev row : List ℚ) : List ℚ :=
  (List.range prev.length).map (fun j => row.getD j (prev.getD j 0))

/-- Modelled from the spec: what the `combined_set` setpoint array
records at inner index `i`: "The combined_set just stores the indices"
without an aggregator, and "If an aggregator function is given, the
aggregated values are saved instead of the indices" — the aggregator is
applied to the parameters' freshly set values. -/
def recordOf (agg : Option (List ℚ → ℚ)) (i : ℕ) (vals : List ℚ) : ℚ :=
  match agg with
  | none => (i : ℚ)
  | some f => f vals

/-- Modelled from the spec: the inner sweep over the setpoint rows,
threading the parameter state.  Each entry of the result is the
parameter state right after the row was set, paired with the
`combined_set` record for that row. -/
def innerRun (agg : Option (List ℚ → ℚ)) (st : List ℚ) (i : ℕ) :
    List (List ℚ) → List (List ℚ × ℚ)
  | [] => []
  | row :: rest =>
    (setEach st row, recordOf agg i (setEach st row)) ::
      innerRun agg (setEach st row) (i + 1) rest

/-- The parameter state after a finished inner sweep (the given default
if the sweep had no rows). -/
def lastState (tr : List (List ℚ × ℚ)) (dflt : List ℚ) : List ℚ :=
  match tr.getLast? with
  | none => dflt
  | some pr => pr.1

/-- Modelled from the spec: the outer loop.  For each outer setpoint the
outer parameter (component `0`, `p1` in the notebook) is set, then the
whole inner combined sweep runs; the parameter state carries over from
one outer iteration to the next. -/
def outerRun (agg : Option (List ℚ → ℚ)) (rows : List (List ℚ)) (st : List ℚ) :
    List ℚ → List (List (List ℚ × ℚ))
  | [] => []
  | o :: os =>
    innerRun agg (st.set 0 o) 0 rows ::
      outerRun agg rows (lastState (innerRun agg (st.set 0 o) 0 rows) (st.set 0 o)) os

/-- The arrays of the resulting qcodes `DataSet`: the outer setpoint
array, the `combined_set` setpoint array, one measured-labelled array
per underlying combined parameter (`swept j`), and the array of the
parameter measured by `.each` (`p4` in the notebook, a constant). -/
structure LoopDataSet where
  outerSet : List ℚ
  combinedSet : List (List ℚ)
  swept : ℕ → List (List ℚ)
  eachMeasured : List (List ℚ)

/-- Modelled from the spec: running the whole 2d loop of the notebook
and collecting the dataset arrays. -/
def runLoop (agg : Option (List ℚ → ℚ)) (init : List ℚ) (outer : List ℚ)
    (rows : List (List ℚ)) (mval : ℚ) : LoopDataSet :=
  { outerSet := outer
  , combinedSet := (outerRun agg rows init outer).map (fun tr => tr.map Prod.snd)
  , swept := fun j =>
      (outerRun agg rows init outer).map (fun tr => tr.map (fun pr => pr.1.getD j 0))
  , eachMeasured := (outerRun agg rows init outer).map (fun tr => tr.map (fun _ => mval)) }

/-- Modelled from the spec: `p.sweep(lo, hi, step)` produces the
setpoints `lo, lo + step, ...` up to and including `hi` (the notebook:
`p1.sweep(0,10,1)` has 11 setpoints). -/
def sweepList (lo hi step : ℚ) : List ℚ :=
  (List.range ((⌊(hi - lo) / step⌋).toNat + 1)).map (fun (n : ℕ) => lo + (n : ℚ) * step)

/-- Modelled from the spec: a parameter value guarded by a
`Numbers(lo, hi)` validator. -/
structure QParam where
  value : ℚ

/-- Modelled from the spec: the `Numbers(lo, hi)` validator accepts
exactly the numbers of the closed interval (the snapshot shows
`<Numbers -10<=v<=10>`). -/
def numbersCheck (lo hi v : ℚ) : Bool := decide (lo ≤ v ∧ v ≤ hi)

/-- Modelled from the spec: setting a validated parameter: on a
validator failure the set raises and stores nothing. -/
def paramSet (lo hi : ℚ) (p : QParam) (v : ℚ) : Except Unit QParam :=
  cond (numbersCheck lo hi v) (Except.ok ⟨v⟩) (Except.error ())

/-- Setting with exception semantics: a raised validation error leaves
the parameter as it was. -/
def paramSetRun (lo hi : ℚ) (p : QParam) (v : ℚ) : QParam :=
  match paramSet lo hi p v with
  | Except.ok p' => p'
  | Except.error _ => p

/-! ### Target setting and the field limits (C1, C3, C10) -/

/-- C1: for every target-setting coordinate and every user limit
function, if the limit function applied to the Cartesian components of
the prospective full target vector returns `false`, the set raises the
`Cannot set {coordinate} target to {target}` `ValueError` and the
stored target is unchanged; if it returns `true`, the stored target is
updated to the prospective vector. -/
theorem setTarget_checks_field_limits (L : ℝ → ℝ → ℝ → Bool) (s : DriverState)
    (c : Coord) (v : ℝ) :
    (L (s.target.setComponent c v).x (s.target.setComponent c v).y
        (s.target.setComponent c v).z = false →
      setTarget L s c v = Except.error ⟨c, v⟩ ∧ setTargetRun L s c v = s) ∧
    (L (s.target.setComponent c v).x (s.target.setComponent c v).y
        (s.target.setComponent c v).z = true →
      setTarget L s c v = Except.ok { s with target := s.target.setComponent c v } ∧
      (setTargetRun L s c v).target = s.target.setComponent c v) := by
  constructor <;> intro h <;>
    simp [setTarget, setTargetRun, h]

/-- Witness for C1 at a concrete input: an everywhere-`false` limit
function rejects the set and leaves the state untouched. -/
theorem setTarget_checks_field_limits_wit :
    setTarget (fun _ _ _ => false) initialState Coord.x 2 =
        Except.error ⟨Coord.x, 2⟩ ∧
    setTargetRun (fun _ _ _ => false) initialState Coord.x 2 = initialState :=
  (setTarget_checks_field_limits (fun _ _ _ => false) initialState Coord.x 2).1 rfl

/-- C3: the field is changed in two steps: a successful target set
leaves the measured field untouched, and a subsequent ramp drives the
measured field to the stored target (and does not move the target). -/
theorem two_step_target_then_ramp (L : ℝ → ℝ → ℝ → Bool) (s : DriverState)
    (c : Coord) (v : ℝ) (s' : DriverState) :
    (setTarget L s c v = Except.ok s' → s'.measured = s.measured) ∧
    (rampTo s).measured = targetCartesian s ∧ (rampTo s).target = s.target := by
  refine ⟨fun h => ?_, rfl, rfl⟩
  revert h
  unfold setTarget
  cases L (s.target.setComponent c v).x (s.target.setComponent c v).y
      (s.target.setComponent c v).z <;>
    intro h <;> simp only [cond] at h
  · exact absurd h (by simp)
  · cases h
    rfl

/-- Witness for C3 at a concrete input: with an all-allowing limit the
set succeeds and the measured field is unchanged. -/
theorem two_step_target_then_ramp_wit :
    ({ initialState with
        target := initialFieldVector.setComponent Coord.x 1 } : DriverState).measured =
      initialState.measured ∧
    (rampTo initialState).measured = targetCartesian initialState ∧
    (rampTo initialState).target = initialState.target :=
  ⟨(two_step_target_then_ramp trueLimit initialState Coord.x 1
      { initialState with target := initialFieldVector.setComponent Coord.x 1 }).1 rfl,
    (two_step_target_then_ramp trueLimit initialState Coord.x 1 initialState).2⟩

/-- C10: with the notebook's `spherical_limit` (closed ball of radius
1 T), a target on the boundary is accepted: from the initial state
(`y` and `z` targets at 0) setting the `x` target to 1 succeeds,
because the comparison is non-strict. -/
theorem boundary_target_accepted :
    setTarget sphericalLimit initialState Coord.x 1 =
      Except.ok { initialState with target := initialFieldVector.setComponent Coord.x 1 } ∧
    (setTargetRun sphericalLimit initialState Coord.x 1).target.x = 1 := by
  have h : sphericalLimit (initialFieldVector.setComponent Coord.x 1).x
      (initialFieldVector.setComponent Coord.x 1).y
      (initialFieldVector.setComponent Coord.x 1).z = true := by
    apply decide_eq_true
    show Real.sqrt ((1 : ℝ) ^ 2 + 0 ^ 2 + 0 ^ 2) ≤ 1
    norm_num
  have h2 := (setTarget_checks_field_limits sphericalLimit initialState Coord.x 1).2 h
  exact ⟨h2.1, by rw [h2.2]; rfl⟩

/-! ### The `Numbers(-10, 10)` validator (C9) -/

/-- C9: a set through a `Numbers(-10, 10)` validator succeeds (storing
the new value) exactly when the value lies in the closed interval
`[-10, 10]`; outside it the set raises and the stored value is
unchanged. -/
theorem numbers_validator_set (p : QParam) (v : ℚ) :
    (paramSet (-10) 10 p v = Except.ok ⟨v⟩ ↔ (-10 ≤ v ∧ v ≤ 10)) ∧
    (¬(-10 ≤ v ∧ v ≤ 10) →
      paramSet (-10) 10 p v = Except.error () ∧ paramSetRun (-10) 10 p v = p) := by
  by_cases hc : (-10 ≤ v ∧ v ≤ 10)
  · have hb : numbersCheck (-10) 10 v = true := decide_eq_true hc
    exact ⟨by simp [paramSet, hb, hc], fun h => absurd hc h⟩
  · have hb : numbersCheck (-10) 10 v = false := decide_eq_false hc
    refine ⟨?_, fun _ => ?_⟩
    · simp [paramSet, hb, hc]
    · simp [paramSet, paramSetRun, hb]

/-- Witness for C9 at a concrete input: setting 11 on a `[-10, 10]`
parameter raises and keeps the stored value. -/
theorem numbers_validator_set_wit :
    paramSet (-10) 10 ⟨0⟩ 11 = Except.error () ∧ paramSetRun (-10) 10 ⟨0⟩ 11 = ⟨0⟩ :=
  (numbers_validator_set ⟨0⟩ 11).2 (by norm_num)

/-! ### Combined-parameter sweeps (C4, C5, C7) -/

lemma setEach_length (prev row : List ℚ) : (setEach prev row).length = prev.length := by
  simp [setEach]

lemma setEach_eq_row (prev row : List ℚ) (h : row.length = prev.length) :
    setEach prev row = row := by
  apply List.ext_getElem
  · simp [setEach, h]
  · intro i h1 h2
    simp only [setEach, List.getElem_map, List.getElem_range]
    exact List.getD_eq_getElem row _ h2

lemma map_eq_range_getD {α β : Type} (l : List α) (d : α) (f : α → β) :
    l.map f = (List.range l.length).map (fun i => f (l.getD i d)) := by
  apply List.ext_getElem
  · simp
  · intro i h1 h2
    simp only [List.getElem_map, List.getElem_range]
    rw [List.getD_eq_getElem l d (by simpa using h1)]

lemma innerRun_closed (agg : Option (List ℚ → ℚ)) :
    ∀ (rows : List (List ℚ)) (st : List ℚ) (i : ℕ),
      (∀ row ∈ rows, row.length = st.length) →
      innerRun agg st i rows =
        (List.range rows.length).map
          (fun k => (rows.getD k [], recordOf agg (i + k) (rows.getD k [])))
  | [], _, _, _ => by simp [innerRun]
  | row :: rest, st, i, h => by
    have hrow : setEach st row = row := setEach_eq_row st row (h row (by simp))
    have ih := innerRun_closed agg rest (setEach st row) (i + 1) (by
      intro r hr
      rw [setEach_length]
      exact h r (List.mem_cons_of_mem _ hr))
    show (setEach st row, recordOf agg i (setEach st row)) ::
        innerRun agg (setEach st row) (i + 1) rest = _
    rw [ih, hrow, List.length_cons, List.range_succ_eq_map, List.map_cons, List.map_map]
    have htail : (List.range rest.length).map
        (fun k => (rest.getD k [], recordOf agg (i + 1 + k) (rest.getD k []))) =
        (List.range rest.length).map
          ((fun k => ((row :: rest).getD k [],
            recordOf agg (i + k) ((row :: rest).getD k []))) ∘ Nat.succ) := by
      apply List.map_congr_left
      intro k _
      have hik : i + (k + 1) = i + 1 + k := by omega
      simp only [Function.comp_apply, List.getD_cons_succ, hik]
    rw [htail]
    rfl

lemma innerRun_state_length (agg : Option (List ℚ → ℚ)) :
    ∀ (rows : List (List ℚ)) (st : List ℚ) (i : ℕ),
      ∀ pr ∈ innerRun agg st i rows, pr.1.length = st.length
  | [], _, _, _, hpr => by simp [innerRun] at hpr
  | row :: rest, st, i, pr, hpr => by
    rcases (by simpa [innerRun] using hpr :
        pr = (setEach st row, recordOf agg i (setEach st row)) ∨
          pr ∈ innerRun agg (setEach st row) (i + 1) rest) with h1 | h1
    · rw [h1]
      exact setEach_length st row
    · rw [innerRun_state_length agg rest (setEach st row) (i + 1) pr h1]
      exact setEach_length st row

lemma innerRun_length (agg : Option (List ℚ → ℚ)) :
    ∀ (rows : List (List ℚ)) (st : List ℚ) (i : ℕ),
      (innerRun agg st i rows).length = rows.length
  | [], _, _ => by simp [innerRun]
  | row :: rest, st, i => by
    show (innerRun agg (setEach st row) (i + 1) rest).length + 1 = rest.length + 1
    rw [innerRun_length agg rest (setEach st row) (i + 1)]

lemma lastState_length (tr : List (List ℚ × ℚ)) (dflt : List ℚ) (k : ℕ)
    (hd : dflt.length = k) (h : ∀ pr ∈ tr, pr.1.length = k) :
    (lastState tr dflt).length = k := by
  unfold lastState
  cases htr : tr.getLast? with
  | none => exact hd
  | some pr =>
    rcases List.mem_getLast?_eq_getLast (Option.mem_def.mpr htr) with ⟨hne, hpr⟩
    exact h pr (by rw [hpr]; exact List.getLast_mem hne)

lemma outerRun_length (agg : Option (List ℚ → ℚ)) (rows : List (List ℚ)) :
    ∀ (os : List ℚ) (st : List ℚ), (outerRun agg rows st os).length = os.length
  | [], _ => by simp [outerRun]
  | o :: os, st => by
    show (outerRun agg rows _ os).length + 1 = os.length + 1
    rw [outerRun_length agg rows os]

lemma outerRun_closed (agg : Option (List ℚ → ℚ)) (rows : List (List ℚ)) (k : ℕ)
    (hrows : ∀ row ∈ rows, row.length = k) :
    ∀ (os : List ℚ) (st : List ℚ), st.length = k →
      outerRun agg rows st os =
        os.map (fun _ => (List.range rows.length).map
          (fun j => (rows.getD j [], recordOf agg j (rows.getD j []))))
  | [], _, _ => by simp [outerRun]
  | o :: os, st, hst => by
    have hset : (st.set 0 o).length = k := by simp [hst]
    have hin := innerRun_closed agg rows (st.set 0 o) 0 (by
      intro r hr
      rw [hset]
      exact hrows r hr)
    have hlast : (lastState (innerRun agg (st.set 0 o) 0 rows) (st.set 0 o)).length = k := by
      apply lastState_length _ _ k hset
      intro pr hpr
      rw [innerRun_state_length agg rows (st.set 0 o) 0 pr hpr]
      exact hset
    show innerRun agg (st.set 0 o) 0 rows ::
        outerRun agg rows (lastState (innerRun agg (st.set 0 o) 0 rows) (st.set 0 o)) os = _
    rw [outerRun_closed agg rows k hrows os _ hlast, hin]
    simp

/-- C4: in the recorded `combined_set` array, without an aggregator
every inner sweep records the row indices `0, …, m-1` (repeated at
every outer setpoint); with an aggregator it records, for each row, the
aggregator applied to that row's per-parameter set values. -/
theorem combined_set_records (f : List ℚ → ℚ) (init outer : List ℚ)
    (rows : List (List ℚ)) (mval : ℚ)
    (h : ∀ row ∈ rows, row.length = init.length) :
    (runLoop none init outer rows mval).combinedSet =
      outer.map (fun _ => (List.range rows.length).map (Nat.cast : ℕ → ℚ)) ∧
    (runLoop (some f) init outer rows mval).combinedSet =
      outer.map (fun _ => rows.map f) := by
  constructor
  · show ((outerRun none rows init outer).map (fun tr => tr.map Prod.snd)) = _
    rw [outerRun_closed none rows init.length h outer init rfl, List.map_map]
    apply List.map_congr_left
    intro o _
    simp only [Function.comp_apply, List.map_map]
    apply List.map_congr_left
    intro j _
    simp [recordOf]
  · show ((outerRun (some f) rows init outer).map (fun tr => tr.map Prod.snd)) = _
    rw [outerRun_closed (some f) rows init.length h outer init rfl, List.map_map]
    apply List.map_congr_left
    intro o _
    simp only [Function.comp_apply, List.map_map]
    rw [map_eq_range_getD rows [] f]
    apply List.map_congr_left
    intro j _
    simp [recordOf]

/-- Witness for C4 at concrete inputs, matching the notebook: without
an aggregator the indices `0, 1` are recorded at both outer setpoints;
with the summing aggregator the row sums are recorded. -/
theorem combined_set_records_wit :
    (runLoop none [0, 0, 0] [5, 6] [[1, 1, 1], [2, 2, 2]] 0).combinedSet =
      [[0, 1], [0, 1]] ∧
    (runLoop (some (fun l => l.foldr (· + ·) 0)) [0, 0, 0] [5, 6]
        [[1, 1, 1], [2, 2, 2]] 0).combinedSet = [[3, 6], [3, 6]] := by
  have h := combined_set_records (fun l => l.foldr (· + ·) 0) [0, 0, 0] [5, 6]
    [[1, 1, 1], [2, 2, 2]] 0 (by
      intro r hr
      simp only [List.mem_cons, List.not_mem_nil, or_false] at hr
      rcases hr with rfl | rfl <;> rfl)
  refine ⟨?_, ?_⟩
  · rw [h.1]
    simp [List.range_succ]
  · rw [h.2]
    norm_num [List.foldr]

/-- C5: sweeping a combined parameter over `m` setpoint rows sets, at
every sweep step `i`, the underlying parameters to row `i` (each to its
own component), and the dataset stores each underlying parameter's set
values in its own measured-labelled array. -/
theorem combined_sweep_sets_each (agg : Option (List ℚ → ℚ)) (init outer : List ℚ)
    (rows : List (List ℚ)) (mval : ℚ)
    (h : ∀ row ∈ rows, row.length = init.length) :
    (∀ tr ∈ outerRun agg rows init outer, ∀ i, i < rows.length →
      (tr.getD i ([], 0)).1 = rows.getD i []) ∧
    (∀ j, (runLoop agg init outer rows mval).swept j =
      outer.map (fun _ => rows.map (fun row => row.getD j 0))) := by
  constructor
  · intro tr htr i hi
    rw [outerRun_closed agg rows init.length h outer init rfl] at htr
    rcases List.mem_map.mp htr with ⟨o, _, rfl⟩
    rw [List.getD_eq_getElem _ _ (by simpa using hi)]
    simp
  · intro j
    show ((outerRun agg rows init outer).map
        (fun tr => tr.map (fun pr => pr.1.getD j 0))) = _
    rw [outerRun_closed agg rows init.length h outer init rfl, List.map_map]
    apply List.map_congr_left
    intro o _
    simp only [Function.comp_apply, List.map_map]
    rw [map_eq_range_getD rows [] (fun row => row.getD j 0)]
    apply List.map_congr_left
    intro i _
    simp

/-- Witness for C5 at concrete inputs: parameter 0's measured array
holds its own components of the two rows at both outer setpoints. -/
theorem combined_sweep_sets_each_wit :
    (runLoop none [0, 0, 0] [5, 6] [[1, 1, 1], [2, 2, 2]] 0).swept 0 =
      [[1, 2], [1, 2]] := by
  have h := (combined_sweep_sets_each none [0, 0, 0] [5, 6] [[1, 1, 1], [2, 2, 2]] 0
    (by
      intro r hr
      simp only [List.mem_cons, List.not_mem_nil, or_false] at hr
      rcases hr with rfl | rfl <;> rfl)).2 0
  rw [h]
  simp [List.getD_cons_zero]

lemma innerRun_of_mem_outerRun (agg : Option (List ℚ → ℚ)) (rows : List (List ℚ)) :
    ∀ (st os : List ℚ) (tr : List (List ℚ × ℚ)),
      tr ∈ outerRun agg rows st os → tr.length = rows.length
  | _, [], _, h => by simp [outerRun] at h
  | st, o :: os, tr, h => by
    rcases (by simpa [outerRun] using h :
        tr = innerRun agg (st.set 0 o) 0 rows ∨
          tr ∈ outerRun agg rows
            (lastState (innerRun agg (st.set 0 o) 0 rows) (st.set 0 o)) os) with h1 | h1
    · rw [h1]
      exact innerRun_length agg rows (st.set 0 o) 0
    · exact innerRun_of_mem_outerRun agg rows _ os tr h1

/-- C7: the dataset of the 2d loop has an outer setpoint array of
shape `(n,)` and a `combined_set` array and measured arrays of shape
`(n, m)`, where `n` is the number of outer setpoints (11 for
`p1.sweep(0,10,1)`) and `m` the number of combined setpoint rows. -/
theorem loop_dataset_shapes (agg : Option (List ℚ → ℚ)) (init outer : List ℚ)
    (rows : List (List ℚ)) (mval : ℚ) :
    (runLoop agg init outer rows mval).outerSet.length = outer.length ∧
    (runLoop agg init outer rows mval).combinedSet.length = outer.length ∧
    (∀ arr ∈ (runLoop agg init outer rows mval).combinedSet,
      arr.length = rows.length) ∧
    (∀ j, ((runLoop agg init outer rows mval).swept j).length = outer.length ∧
      ∀ arr ∈ (runLoop agg init outer rows mval).swept j, arr.length = rows.length) ∧
    ((runLoop agg init outer rows mval).eachMeasured.length = outer.length ∧
      ∀ arr ∈ (runLoop agg init outer rows mval).eachMeasured,
        arr.length = rows.length) ∧
    (sweepList 0 10 1).length = 11 := by
  refine ⟨rfl, ?_, ?_, ?_, ⟨?_, ?_⟩, ?_⟩
  · show ((outerRun agg rows init outer).map _).length = _
    rw [List.length_map, outerRun_length]
  · intro arr harr
    rcases List.mem_map.mp harr with ⟨tr, htr, rfl⟩
    rw [List.length_map, innerRun_of_mem_outerRun agg rows init outer tr htr]
  · intro j
    constructor
    · show ((outerRun agg rows init outer).map _).length = _
      rw [List.length_map, outerRun_length]
    · intro arr harr
      rcases List.mem_map.mp harr with ⟨tr, htr, rfl⟩
      rw [List.length_map, innerRun_of_mem_outerRun agg rows init outer tr htr]
  · show ((outerRun agg rows init outer).map _).length = _
    rw [List.length_map, outerRun_length]
  · intro arr harr
    rcases List.mem_map.mp harr with ⟨tr, htr, rfl⟩
    rw [List.length_map, innerRun_of_mem_outerRun agg rows init outer tr htr]
  · unfold sweepList
    rw [List.length_map, List.length_range]
    norm_num
    decide

/-- Witness for C7 at concrete inputs. -/
theorem loop_dataset_shapes_wit :
    (runLoop none [0, 0, 0] [5, 6] [[1, 1, 1], [2, 2, 2]] 0).combinedSet.length = 2 ∧
    (sweepList 0 10 1).length = 11 := by
  have h := loop_dataset_shapes none [0, 0, 0] [5, 6] [[1, 1, 1], [2, 2, 2]] (0 : ℚ)
  exact ⟨h.2.1, h.2.2.2.2.2⟩

/-! ### Coordinate conversions (C6, C8) -/

lemma rho_cos_phi (x y : ℝ) :
    Real.sqrt (x ^ 2 + y ^ 2) * Real.cos (Complex.arg (x + y * Complex.I)) = x := by
  rcases eq_or_ne (x ^ 2 + y ^ 2) 0 with h0 | h0
  · have hx : x = 0 := by nlinarith [sq_nonneg x, sq_nonneg y]
    have hy : y = 0 := by nlinarith [sq_nonneg x, sq_nonneg y]
    simp [hx, hy]
  · have hS : 0 < x ^ 2 + y ^ 2 := lt_of_le_of_ne (by positivity) (Ne.symm h0)
    have hsq : Real.sqrt (x ^ 2 + y ^ 2) ≠ 0 := ne_of_gt (Real.sqrt_pos.mpr hS)
    have hz : (x + y * Complex.I : ℂ) ≠ 0 := by
      intro hc
      have hre : x = 0 := by simpa using congrArg Complex.re hc
      have him : y = 0 := by simpa using congrArg Complex.im hc
      exact h0 (by rw [hre, him]; ring)
    rw [Complex.cos_arg hz, Complex.abs_add_mul_I]
    have hre2 : (x + y * Complex.I : ℂ).re = x := by simp
    rw [hre2]
    field_simp

lemma rho_sin_phi (x y : ℝ) :
    Real.sqrt (x ^ 2 + y ^ 2) * Real.sin (Complex.arg (x + y * Complex.I)) = y := by
  rcases eq_or_ne (x ^ 2 + y ^ 2) 0 with h0 | h0
  · have hx : x = 0 := by nlinarith [sq_nonneg x, sq_nonneg y]
    have hy : y = 0 := by nlinarith [sq_nonneg x, sq_nonneg y]
    simp [hx, hy]
  · have hS : 0 < x ^ 2 + y ^ 2 := lt_of_le_of_ne (by positivity) (Ne.symm h0)
    have hsq : Real.sqrt (x ^ 2 + y ^ 2) ≠ 0 := ne_of_gt (Real.sqrt_pos.mpr hS)
    rw [Complex.sin_arg, Complex.abs_add_mul_I]
    have him2 : (x + y * Complex.I : ℂ).im = y := by simp
    rw [him2]
    field_simp

lemma sq_add_sq_rho (x y z : ℝ) :
    z ^ 2 + Real.sqrt (x ^ 2 + y ^ 2) ^ 2 = x ^ 2 + y ^ 2 + z ^ 2 := by
  rw [Real.sq_sqrt (by positivity)]
  ring

lemma r_sin_theta (x y z : ℝ) :
    Real.sqrt (x ^ 2 + y ^ 2 + z ^ 2) *
      Real.sin (Complex.arg (z + Real.sqrt (x ^ 2 + y ^ 2) * Complex.I)) =
      Real.sqrt (x ^ 2 + y ^ 2) := by
  rw [Complex.sin_arg, Complex.abs_add_mul_I, sq_add_sq_rho]
  have him2 : (z + Real.sqrt (x ^ 2 + y ^ 2) * Complex.I : ℂ).im = Real.sqrt (x ^ 2 + y ^ 2) := by
    simp
  rw [him2]
  rcases eq_or_ne (x ^ 2 + y ^ 2 + z ^ 2) 0 with h0 | h0
  · have hxy : x ^ 2 + y ^ 2 = 0 := by nlinarith [sq_nonneg x, sq_nonneg y, sq_nonneg z]
    simp [h0, hxy]
  · have hS : 0 < x ^ 2 + y ^ 2 + z ^ 2 := lt_of_le_of_ne (by positivity) (Ne.symm h0)
    have hsq : Real.sqrt (x ^ 2 + y ^ 2 + z ^ 2) ≠ 0 := ne_of_gt (Real.sqrt_pos.mpr hS)
    field_simp

lemma r_cos_theta (x y z : ℝ) :
    Real.sqrt (x ^ 2 + y ^ 2 + z ^ 2) *
      Real.cos (Complex.arg (z + Real.sqrt (x ^ 2 + y ^ 2) * Complex.I)) = z := by
  rcases eq_or_ne (x ^ 2 + y ^ 2 + z ^ 2) 0 with h0 | h0
  · have hz : z = 0 := by nlinarith [sq_nonneg x, sq_nonneg y, sq_nonneg z]
    have h0' : Real.sqrt (x ^ 2 + y ^ 2 + z ^ 2) = 0 := by rw [h0]; exact Real.sqrt_zero
    rw [h0', zero_mul, hz]
  · have hS : 0 < x ^ 2 + y ^ 2 + z ^ 2 := lt_of_le_of_ne (by positivity) (Ne.symm h0)
    have hsq : Real.sqrt (x ^ 2 + y ^ 2 + z ^ 2) ≠ 0 := ne_of_gt (Real.sqrt_pos.mpr hS)
    have hne : (z + Real.sqrt (x ^ 2 + y ^ 2) * Complex.I : ℂ) ≠ 0 := by
      intro hc
      have hzz : z = 0 := by simpa using congrArg Complex.re hc
      have hrr : Real.sqrt (x ^ 2 + y ^ 2) = 0 := by simpa using congrArg Complex.im hc
      have hxy : x ^ 2 + y ^ 2 = 0 := by
        have := Real.sqrt_eq_zero (by positivity : (0 : ℝ) ≤ x ^ 2 + y ^ 2) |>.mp hrr
        linarith [this]
      exact h0 (by rw [hzz]; linarith [hxy])
    rw [Complex.cos_arg hne, Complex.abs_add_mul_I, sq_add_sq_rho]
    have hre2 : (z + Real.sqrt (x ^ 2 + y ^ 2) * Complex.I : ℂ).re = z := by simp
    rw [hre2]
    field_simp

/-- C6: the driver exposes the same field vector in Cartesian,
spherical and cylindrical coordinates consistently: converting the
Cartesian components of a nonzero vector to spherical or cylindrical
coordinates and back yields the original vector. -/
theorem coordinate_round_trip (x y z : ℝ) (h : ¬(x = 0 ∧ y = 0 ∧ z = 0)) :
    (computeFromSpherical (computeFromCartesian x y z).r
        (computeFromCartesian x y z).theta (computeFromCartesian x y z).phi).x = x ∧
    (computeFromSpherical (computeFromCartesian x y z).r
        (computeFromCartesian x y z).theta (computeFromCartesian x y z).phi).y = y ∧
    (computeFromSpherical (computeFromCartesian x y z).r
        (computeFromCartesian x y z).theta (computeFromCartesian x y z).phi).z = z ∧
    (computeFromCylindrical (computeFromCartesian x y z).rho
        (computeFromCartesian x y z).phi (computeFromCartesian x y z).z).x = x ∧
    (computeFromCylindrical (computeFromCartesian x y z).rho
        (computeFromCartesian x y z).phi (computeFromCartesian x y z).z).y = y ∧
    (computeFromCylindrical (computeFromCartesian x y z).rho
        (computeFromCartesian x y z).phi (computeFromCartesian x y z).z).z = z := by
  refine ⟨?_, ?_, ?_, ?_, ?_, rfl⟩
  · show Real.sqrt (x ^ 2 + y ^ 2 + z ^ 2) *
        Real.sin (Complex.arg (z + Real.sqrt (x ^ 2 + y ^ 2) * Complex.I)) *
        Real.cos (Complex.arg (x + y * Complex.I)) = x
    rw [r_sin_theta, rho_cos_phi]
  · show Real.sqrt (x ^ 2 + y ^ 2 + z ^ 2) *
        Real.sin (Complex.arg (z + Real.sqrt (x ^ 2 + y ^ 2) * Complex.I)) *
        Real.sin (Complex.arg (x + y * Complex.I)) = y
    rw [r_sin_theta, rho_sin_phi]
  · show Real.sqrt (x ^ 2 + y ^ 2 + z ^ 2) *
        Real.cos (Complex.arg (z + Real.sqrt (x ^ 2 + y ^ 2) * Complex.I)) = z
    rw [r_cos_theta]
  · show Real.sqrt (x ^ 2 + y ^ 2) * Real.cos (Complex.arg (x + y * Complex.I)) = x
    rw [rho_cos_phi]
  · show Real.sqrt (x ^ 2 + y ^ 2) * Real.sin (Complex.arg (x + y * Complex.I)) = y
    rw [rho_sin_phi]

/-- Witness for C6 at the concrete nonzero vector (1, 0, 0). -/
theorem coordinate_round_trip_wit :
    ¬((1 : ℝ) = 0 ∧ (0 : ℝ) = 0 ∧ (0 : ℝ) = 0) ∧
    (computeFromSpherical (computeFromCartesian 1 0 0).r
        (computeFromCartesian 1 0 0).theta (computeFromCartesian 1 0 0).phi).x = 1 :=
  ⟨by norm_num, (coordinate_round_trip 1 0 0 (by norm_num)).1⟩

/-- C8: at the origin the driver retains the previously set `theta` and
`phi` targets: after setting `theta`, `phi` and then `r = 0`, the
stored target still carries the angles; and after ramping `r` out to a
positive value with the angle targets unchanged, the measured `theta`
and `phi` equal the stored target angles. -/
theorem origin_angle_retention (t p rr : ℝ) (ht0 : 0 < t) (htpi : t < Real.pi)
    (hp : p ∈ Set.Ioc (-Real.pi) Real.pi) (hrr : 0 < rr) :
    (setTargetRun trueLimit (setTargetRun trueLimit (setTargetRun trueLimit initialState
        Coord.theta t) Coord.phi p) Coord.r 0).target.theta = t ∧
    (setTargetRun trueLimit (setTargetRun trueLimit (setTargetRun trueLimit initialState
        Coord.theta t) Coord.phi p) Coord.r 0).target.phi = p ∧
    thetaMeasured (rampTo (setTargetRun trueLimit (rampTo (setTargetRun trueLimit
        (setTargetRun trueLimit (setTargetRun trueLimit initialState Coord.theta t)
        Coord.phi p) Coord.r 0)) Coord.r rr)) = t ∧
    phiMeasured (rampTo (setTargetRun trueLimit (rampTo (setTargetRun trueLimit
        (setTargetRun trueLimit (setTargetRun trueLimit initialState Coord.theta t)
        Coord.phi p) Coord.r 0)) Coord.r rr)) = p := by
  have hsin : 0 < Real.sin t := Real.sin_pos_of_pos_of_lt_pi ht0 htpi
  have hsq : Real.sqrt ((rr * Real.sin t * Real.cos p) ^ 2 +
      (rr * Real.sin t * Real.sin p) ^ 2) = rr * Real.sin t := by
    have hpyth : (rr * Real.sin t * Real.cos p) ^ 2 +
        (rr * Real.sin t * Real.sin p) ^ 2 = (rr * Real.sin t) ^ 2 := by
      have hcs := Real.sin_sq_add_cos_sq p
      nlinarith [hcs]
    rw [hpyth, Real.sqrt_sq (by positivity)]
  refine ⟨rfl, rfl, ?_, ?_⟩
  · show Complex.arg ((rr * Real.cos t : ℝ) +
        Real.sqrt ((rr * Real.sin t * Real.cos p) ^ 2 +
          (rr * Real.sin t * Real.sin p) ^ 2) * Complex.I) = t
    rw [hsq]
    have hfac : ((rr * Real.cos t : ℝ) + (rr * Real.sin t : ℝ) * Complex.I : ℂ) =
        (rr : ℂ) * (Real.cos t + Real.sin t * Complex.I) := by
      push_cast
      ring
    rw [hfac, Complex.arg_real_mul _ hrr, Complex.ofReal_cos, Complex.ofReal_sin]
    exact Complex.arg_cos_add_sin_mul_I ⟨by linarith [Real.pi_pos], le_of_lt htpi⟩
  · show Complex.arg ((rr * Real.sin t * Real.cos p : ℝ) +
        (rr * Real.sin t * Real.sin p : ℝ) * Complex.I) = p
    have hfac : ((rr * Real.sin t * Real.cos p : ℝ) +
        (rr * Real.sin t * Real.sin p : ℝ) * Complex.I : ℂ) =
        ((rr * Real.sin t : ℝ) : ℂ) * (Real.cos p + Real.sin p * Complex.I) := by
      push_cast
      ring
    rw [hfac, Complex.arg_real_mul _ (by positivity), Complex.ofReal_cos,
      Complex.ofReal_sin]
    exact Complex.arg_cos_add_sin_mul_I hp

/-! ### The safe ramp and the safe region (C2) -/

lemma toward_le (s t : Fin 3 → ℝ) (i : Fin 3) (h : towardOrigin s t i = true) :
    |t i| ≤ |s i| := of_decide_eq_true h

lemma away_lt (s t : Fin 3 → ℝ) (i : Fin 3) (h : towardOrigin s t i = false) :
    |s i| < |t i| := lt_of_not_le (of_decide_eq_false h)

lemma mix_abs_le (a b c : ℝ) (h0 : 0 ≤ c) (h1 : c ≤ 1) :
    |(1 - c) * a + c * b| ≤ max |a| |b| := by
  have h2 : |(1 - c) * a + c * b| ≤ (1 - c) * |a| + c * |b| := by
    calc |(1 - c) * a + c * b| ≤ |(1 - c) * a| + |c * b| := abs_add _ _
    _ = (1 - c) * |a| + c * |b| := by
        rw [abs_mul, abs_mul, abs_of_nonneg (by linarith : (0:ℝ) ≤ 1 - c),
          abs_of_nonneg h0]
  have ha := le_max_left |a| |b|
  have hb := le_max_right |a| |b|
  have h3 : (1 - c) * |a| + c * |b| ≤ (1 - c) * max |a| |b| + c * max |a| |b| := by
    have hca : (1 - c) * |a| ≤ (1 - c) * max |a| |b| :=
      mul_le_mul_of_nonneg_left ha (by linarith)
    have hcb : c * |b| ≤ c * max |a| |b| := mul_le_mul_of_nonneg_left hb h0
    linarith
  have h4 : (1 - c) * max |a| |b| + c * max |a| |b| = max |a| |b| := by ring
  linarith

lemma safeOrder_length (s t : Fin 3 → ℝ) : (safeOrder s t).length = 3 := by
  rw [safeOrder, List.length_append,
    ← List.length_eq_length_filter_add (towardOrigin s t), List.length_finRange]

/-- C2 (amended): all components ramping towards the origin finish
before any component ramping away from it starts; and if the safe
region is closed under componentwise magnitude reduction and contains
the start and the target, every intermediate field of the safe ramp
stays inside the region. -/
theorem safe_ramp_order_and_region (s t : Fin 3 → ℝ) (S : Set (Fin 3 → ℝ))
    (hS : MagnitudeClosed S) (hs : s ∈ S) (ht : t ∈ S) :
    (∀ (k : ℕ) (hk : k < (safeOrder s t).length),
      towardOrigin s t ((safeOrder s t).get ⟨k, hk⟩) = false →
      ∀ i : Fin 3, towardOrigin s t i = true → i ∈ (safeOrder s t).take k) ∧
    (∀ v : Fin 3 → ℝ, SafeRampIntermediate s t v → v ∈ S) := by
  have hTlen : ∀ (k : ℕ) (hk : k < (safeOrder s t).length),
      towardOrigin s t ((safeOrder s t).get ⟨k, hk⟩) = false →
      ((List.finRange 3).filter (towardOrigin s t)).length ≤ k := by
    intro k hk hjf
    by_contra hlt
    push_neg at hlt
    have hjT : (safeOrder s t).get ⟨k, hk⟩ ∈
        (List.finRange 3).filter (towardOrigin s t) := by
      have hgoal : (safeOrder s t).get ⟨k, hk⟩ =
          ((List.finRange 3).filter (towardOrigin s t)).get ⟨k, hlt⟩ := by
        rw [List.get_eq_getElem, List.get_eq_getElem]
        exact List.getElem_append_left hlt
      rw [hgoal, List.get_eq_getElem]
      exact List.getElem_mem hlt
    have htt := (List.mem_filter.mp hjT).2
    rw [htt] at hjf
    cases hjf
  constructor
  · intro k hk hjf i hti
    have hk2 := hTlen k hk hjf
    rw [safeOrder, List.take_append_eq_append_take, List.take_of_length_le hk2]
    exact List.mem_append_left _ (List.mem_filter.mpr ⟨List.mem_finRange i, hti⟩)
  · rintro v ⟨k, hk, c, hc0, hc1, rfl⟩
    by_cases hkT : k < ((List.finRange 3).filter (towardOrigin s t)).length
    · have hjT : towardOrigin s t ((safeOrder s t).get ⟨k, hk⟩) = true := by
        by_contra hjf
        rw [Bool.not_eq_true] at hjf
        exact absurd (hTlen k hk hjf) (not_le.mpr hkT)
      have hdone_sub : (safeOrder s t).take k ⊆
          (List.finRange 3).filter (towardOrigin s t) := by
        rw [safeOrder, List.take_append_eq_append_take,
          Nat.sub_eq_zero_of_le (le_of_lt hkT), List.take_zero, List.append_nil]
        exact List.take_subset _ _
      apply hS s hs
      intro i
      simp only [segPoint]
      by_cases hdone : i ∈ (safeOrder s t).take k
      · rw [if_pos hdone]
        exact toward_le s t i (List.mem_filter.mp (hdone_sub hdone)).2
      · rw [if_neg hdone]
        by_cases hij : i = (safeOrder s t).get ⟨k, hk⟩
        · rw [if_pos hij]
          have hjle : |t i| ≤ |s i| := toward_le s t i (by rw [hij]; exact hjT)
          calc |(1 - c) * s i + c * t i| ≤ max |s i| |t i| :=
                mix_abs_le _ _ _ hc0 hc1
            _ = |s i| := max_eq_left hjle
        · rw [if_neg hij]
    · push_neg at hkT
      apply hS t ht
      intro i
      simp only [segPoint]
      by_cases hdone : i ∈ (safeOrder s t).take k
      · rw [if_pos hdone]
      · rw [if_neg hdone]
        have hiA : towardOrigin s t i = false := by
          by_contra hb
          rw [Bool.not_eq_false] at hb
          apply hdone
          rw [safeOrder, List.take_append_eq_append_take, List.take_of_length_le hkT]
          exact List.mem_append_left _ (List.mem_filter.mpr ⟨List.mem_finRange i, hb⟩)
        have hle : |s i| ≤ |t i| := le_of_lt (away_lt s t i hiA)
        by_cases hij : i = (safeOrder s t).get ⟨k, hk⟩
        · rw [if_pos hij]
          calc |(1 - c) * s i + c * t i| ≤ max |s i| |t i| :=
              mix_abs_le _ _ _ hc0 hc1
            _ = |t i| := max_eq_right hle
        · rw [if_neg hij]
          exact hle

lemma safeOrder_ctr : safeOrder ![1, 1, 0] ![0, 0, 1] = [0, 1, 2] := by
  have h0 : towardOrigin ![1, 1, 0] ![0, 0, 1] 0 = true := by
    apply decide_eq_true
    show |(![0, 0, 1] : Fin 3 → ℝ) 0| ≤ |(![1, 1, 0] : Fin 3 → ℝ) 0|
    norm_num [Matrix.cons_val_zero]
  have h1 : towardOrigin ![1, 1, 0] ![0, 0, 1] 1 = true := by
    apply decide_eq_true
    show |(![0, 0, 1] : Fin 3 → ℝ) 1| ≤ |(![1, 1, 0] : Fin 3 → ℝ) 1|
    norm_num [Matrix.cons_val_one, Matrix.head_cons]
  have h2 : towardOrigin ![1, 1, 0] ![0, 0, 1] 2 = false := by
    apply decide_eq_false
    show ¬(|(![0, 0, 1] : Fin 3 → ℝ) 2| ≤ |(![1, 1, 0] : Fin 3 → ℝ) 2|)
    norm_num [Matrix.cons_val_two, Matrix.head_cons, Matrix.tail_cons]
  have hfin : (List.finRange 3 : List (Fin 3)) = [0, 1, 2] := rfl
  rw [safeOrder, hfin]
  simp [List.filter_cons, h0, h1, h2]

lemma safeRamp_intermediate_ctr :
    SafeRampIntermediate ![1, 1, 0] ![0, 0, 1] ![0, 1, 0] := by
  refine ⟨0, by rw [safeOrder_length]; norm_num, 1, by norm_num, le_refl 1, ?_⟩
  have hget : ∀ hk0 : 0 < (safeOrder ![1, 1, 0] ![0, 0, 1]).length,
      (safeOrder ![1, 1, 0] ![0, 0, 1]).get ⟨0, hk0⟩ = 0 := by
    intro hk0
    rw [List.get_eq_getElem]
    simp only [safeOrder_ctr]
    rfl
  rw [List.take_zero, hget]
  funext i
  fin_cases i <;>
    simp [segPoint, Matrix.cons_val_zero, Matrix.cons_val_one, Matrix.head_cons,
      Matrix.cons_val_two, Matrix.tail_cons]

/-- C2 as stated is false: an explicit convex region containing the
origin, the start and the target from which the safe ramp still
escapes: after the first axis has finished its ramp towards the origin,
the field sits outside the region. -/
theorem safe_ramp_convex_counterexample :
    Convex ℝ halfspaceRegion ∧
    (fun _ => (0 : ℝ)) ∈ halfspaceRegion ∧
    (![1, 1, 0] : Fin 3 → ℝ) ∈ halfspaceRegion ∧
    (![0, 0, 1] : Fin 3 → ℝ) ∈ halfspaceRegion ∧
    SafeRampIntermediate ![1, 1, 0] ![0, 0, 1] ![0, 1, 0] ∧
    (![0, 1, 0] : Fin 3 → ℝ) ∉ halfspaceRegion := by
  refine ⟨?_, ?_, ?_, ?_, safeRamp_intermediate_ctr, ?_⟩
  · intro x hx y hy u w hu hw huw
    simp only [halfspaceRegion, Set.mem_setOf_eq, Pi.add_apply, Pi.smul_apply,
      smul_eq_mul] at hx hy ⊢
    nlinarith [mul_le_mul_of_nonneg_left hx hu, mul_le_mul_of_nonneg_left hy hw]
  · show (0 : ℝ) ≤ 0 + 0
    norm_num
  · show (![1, 1, 0] : Fin 3 → ℝ) 1 ≤ (![1, 1, 0] : Fin 3 → ℝ) 0 + (![1, 1, 0] : Fin 3 → ℝ) 2
    norm_num [Matrix.cons_val_zero, Matrix.cons_val_one, Matrix.head_cons,
      Matrix.cons_val_two, Matrix.tail_cons]
  · show (![0, 0, 1] : Fin 3 → ℝ) 1 ≤ (![0, 0, 1] : Fin 3 → ℝ) 0 + (![0, 0, 1] : Fin 3 → ℝ) 2
    norm_num [Matrix.cons_val_zero, Matrix.cons_val_one, Matrix.head_cons,
      Matrix.cons_val_two, Matrix.tail_cons]
  · show ¬((![0, 1, 0] : Fin 3 → ℝ) 1 ≤ (![0, 1, 0] : Fin 3 → ℝ) 0 + (![0, 1, 0] : Fin 3 → ℝ) 2)
    norm_num [Matrix.cons_val_zero, Matrix.cons_val_one, Matrix.head_cons,
      Matrix.cons_val_two, Matrix.tail_cons]

/-- Witness for the amended C2 at concrete inputs: a magnitude-closed
ball that contains start and target also contains the intermediate
ramp state. -/
theorem safe_ramp_order_and_region_wit :
    (![0, 1, 0] : Fin 3 → ℝ) ∈ {v : Fin 3 → ℝ | v 0 ^ 2 + v 1 ^ 2 + v 2 ^ 2 ≤ 4} := by
  have hmag : MagnitudeClosed {v : Fin 3 → ℝ | v 0 ^ 2 + v 1 ^ 2 + v 2 ^ 2 ≤ 4} := by
    intro w hw v hvw
    simp only [Set.mem_setOf_eq] at hw ⊢
    have s0 : v 0 ^ 2 ≤ w 0 ^ 2 := by
      rw [← sq_abs (v 0), ← sq_abs (w 0)]
      exact pow_le_pow_left (abs_nonneg _) (hvw 0) 2
    have s1 : v 1 ^ 2 ≤ w 1 ^ 2 := by
      rw [← sq_abs (v 1), ← sq_abs (w 1)]
      exact pow_le_pow_left (abs_nonneg _) (hvw 1) 2
    have s2 : v 2 ^ 2 ≤ w 2 ^ 2 := by
      rw [← sq_abs (v 2), ← sq_abs (w 2)]
      exact pow_le_pow_left (abs_nonneg _) (hvw 2) 2
    linarith
  have hs : (![1, 1, 0] : Fin 3 → ℝ) ∈
      {v : Fin 3 → ℝ | v 0 ^ 2 + v 1 ^ 2 + v 2 ^ 2 ≤ 4} := by
    show (![1, 1, 0] : Fin 3 → ℝ) 0 ^ 2 + (![1, 1, 0] : Fin 3 → ℝ) 1 ^ 2 +
        (![1, 1, 0] : Fin 3 → ℝ) 2 ^ 2 ≤ 4
    norm_num [Matrix.cons_val_zero, Matrix.cons_val_one, Matrix.head_cons,
      Matrix.cons_val_two, Matrix.tail_cons]
  have ht : (![0, 0, 1] : Fin 3 → ℝ) ∈
      {v : Fin 3 → ℝ | v 0 ^ 2 + v 1 ^ 2 + v 2 ^ 2 ≤ 4} := by
    show (![0, 0, 1] : Fin 3 → ℝ) 0 ^ 2 + (![0, 0, 1] : Fin 3 → ℝ) 1 ^ 2 +
        (![0, 0, 1] : Fin 3 → ℝ) 2 ^ 2 ≤ 4
    norm_num [Matrix.cons_val_zero, Matrix.cons_val_one, Matrix.head_cons,
      Matrix.cons_val_two, Matrix.tail_cons]
  exact (safe_ramp_order_and_region ![1, 1, 0] ![0, 0, 1] _ hmag hs ht).2
    ![0, 1, 0] safeRamp_intermediate_ctr

/-- Witness for C8 at `theta = pi/2`, `phi = 0`, `r` ramped to 1. -/
theorem origin_angle_retention_wit :
    (0 : ℝ) < Real.pi / 2 ∧
    thetaMeasured (rampTo (setTargetRun trueLimit (rampTo (setTargetRun trueLimit
        (setTargetRun trueLimit (setTargetRun trueLimit initialState
          Coord.theta (Real.pi / 2)) Coord.phi 0) Coord.r 0)) Coord.r 1)) = Real.pi / 2 :=
  ⟨by positivity, (origin_angle_retention (Real.pi / 2) 0 1 (by positivity)
      (by linarith [Real.pi_pos]) ⟨by linarith [Real.pi_pos], Real.pi_pos.le⟩
      one_pos).2.2.1⟩

